import Mathlib

/-!
Shallow embedding of the object-codec and storage-access layer of the
NicolasDP/git library (Rust), for checking its natural-language
specification.

Conventions of the embedding:

* A Rust byte slice is a `List Nat`, each element a byte value (0..255).
* Rust `String` values are represented by their UTF-8 byte sequences
  (`List Nat`); the `str::from_utf8` validation step is not re-modelled,
  which only widens the set of accepted inputs for non-ASCII data and is
  irrelevant to the concrete vectors used below (all ASCII).
* A nom parser `&[u8] -> IResult<&[u8], T>` becomes
  `List Nat → PR T` where `PR` has the three nom outcomes
  (Done / Error / Incomplete) plus `panicked`, which models a Rust panic
  (out-of-bounds slice index, `FixedOffset::east` out of bounds, ...).
* Machine integers are `Nat` / `Int`; the only wrap-relevant operation in
  the modelled code is the u32 high-bit test in the pack-index parser,
  modelled on exact `Nat` values read from 4 big-endian bytes.
  Decimal-overflow failures of `str::parse` into i64/u32 (inputs with
  hundreds of digits) are not modelled; no claim depends on them.
* The byte count carried by an `Incomplete` outcome (nom `Needed`) is
  approximated where nom's exact accounting is irrelevant to every
  claim; the three-way outcome itself is modelled exactly.
-/

namespace GitSpec

/-- Result type of a nom parser: `done remainder value`, a syntactic
error, an incomplete input (with the optional number of needed bytes),
or a Rust panic raised while parsing. -/
inductive PR (α : Type) where
  | done : List Nat → α → PR α
  | perror : PR α
  | incomplete : Option Nat → PR α
  | panicked : PR α
deriving DecidableEq, Repr

/-- Sequencing of parsers, mirroring the chaining of `try_parse!` /
`chain!` in the Rust source: non-`Done` outcomes propagate. -/
def PR.bind {α β : Type} (r : PR α) (f : List Nat → α → PR β) : PR β :=
  match r with
  | .done i v => f i v
  | .perror => .perror
  | .incomplete n => .incomplete n
  | .panicked => .panicked

/-- nom `tag!(t)`: `Incomplete(Size(t.len()))` when the input is
shorter than the tag (nom checks the length before comparing),
otherwise consume the literal byte string `t` or fail. -/
def tagP (t : List Nat) (i : List Nat) : PR Unit :=
  if i.length < t.length then .incomplete (some t.length)
  else if i.take t.length = t then .done (i.drop t.length) () else .perror

/-- Byte test for an ASCII decimal digit, as nom `is_digit`. -/
def isDigitB (c : Nat) : Bool := 48 ≤ c && c ≤ 57

/-- Byte test for an ASCII hexadecimal digit, as nom `is_hex_digit`. -/
def isHexB (c : Nat) : Bool :=
  (48 ≤ c && c ≤ 57) || (97 ≤ c && c ≤ 102) || (65 ≤ c && c ≤ 70)

/-- Structural worker for the decimal rendering: the fuel only needs to
exceed the value, which bounds the digit count. -/
def natDecimalAux : Nat → Nat → List Nat
  | 0, _ => []
  | fuel + 1, n =>
    if n < 10 then [48 + n] else natDecimalAux fuel (n / 10) ++ [48 + n % 10]

/-- Decimal digits (as ASCII bytes, most significant first) of a `Nat`:
the rendering used by Rust `format!` for unsigned values. -/
def natDecimal (n : Nat) : List Nat := natDecimalAux (n + 1) n

/-- Decimal rendering of an `Int`, as Rust `format!` for signed values. -/
def intDecimal (z : Int) : List Nat :=
  if z < 0 then 45 :: natDecimal z.natAbs else natDecimal z.toNat

/-- Numeric value of a run of ASCII digit bytes, as `str::parse`. -/
def digitsVal (l : List Nat) : Nat :=
  l.foldl (fun a c => a * 10 + (c - 48)) 0

/-- nom `digit` followed by `str::parse` (`parse_digit_i64` etc. in the
source): longest run of decimal digits, converted to its value. -/
def parseNatDigits (i : List Nat) : PR Nat :=
  match i with
  | [] => .incomplete (some 1)
  | c :: _ =>
    if isDigitB c then
      .done (i.dropWhile isDigitB) (digitsVal (i.takeWhile isDigitB))
    else .perror

/-- nom `take_until_and_consume!(pat)`: bytes before the first occurrence
of `pat`, consuming the pattern; `Incomplete` when `pat` never occurs. -/
def takeUntilConsume (pat : List Nat) : List Nat → PR (List Nat)
  | [] => .incomplete none
  | c :: rest =>
    if pat.isPrefixOf (c :: rest) then .done ((c :: rest).drop pat.length) []
    else
      match takeUntilConsume pat rest with
      | .done i v => .done i (c :: v)
      | r => r

/-! ### Date codec (src/object/date.rs)

The Rust `Date` wraps a chrono `DateTime<Local>`: observationally a pair
of the Unix timestamp (seconds, i64) and the fixed UTC offset in seconds
(chrono `FixedOffset`, east positive).  `encode_for_obj` renders the
chrono format string `"%s %z"`: the timestamp in decimal, a space, the
offset sign, and the offset as zero-padded `HHMM`. -/

/-- Observational content of `git::object::date::Date`. -/
structure GDate where
  secs : Int
  offset : Int
deriving DecidableEq, Repr

/-- `parse_time_zone_sign`: `alt!(tag "+" | tag "-" | default plus)`;
nom's `alt!` returns early on `Incomplete`, which both tag branches give
on empty input. -/
def parseTimeZoneSign (i : List Nat) : PR Bool :=
  match i with
  | [] => .incomplete (some 1)
  | 43 :: r => .done r true
  | 45 :: r => .done r false
  | _ => .done i true

/-- chrono `FixedOffset::east` (`sign = true`) / `::west`: the offset in
seconds east of UTC; the constructor panics (`none`) when the magnitude
reaches a full day. -/
def fixedOffset (sign : Bool) (off : Nat) : Option Int :=
  if off ≥ 86400 then none
  else some (if sign then (off : Int) else -(off : Int))

/-- `nom_parse_date`: digits (seconds), a space, the sign, digits whose
value `v` splits as `h = v / 100`, `m = v % 100`; the offset is
`FixedOffset::east(h*3600 + m*60)` or `west(..)`.  Not modelled:
chrono's `NaiveDateTime::from_timestamp` also panics outside the
±262144-year calendar range (seconds beyond about `8.2·10^12`); the
round-trip theorem keeps its seconds far below that bound, where the
model and the code agree. -/
def parseDate (i : List Nat) : PR GDate :=
  (parseNatDigits i).bind fun i secs =>
  (tagP [32] i).bind fun i _ =>
  (parseTimeZoneSign i).bind fun i sign =>
  (parseNatDigits i).bind fun i tzv =>
  match fixedOffset sign ((tzv / 100) * 3600 + (tzv % 100) * 60) with
  | none => .panicked
  | some o => .done i ⟨(secs : Int), o⟩

/-- Zero-padded two-digit rendering used by chrono `%z` for the hour and
minute fields of the offset. -/
def pad2 (v : Nat) : List Nat :=
  if v < 10 then [48, 48 + v] else natDecimal v

/-- `Date::encode_for_obj`, chrono `"%s %z"`: the timestamp in signed
decimal, a space, the offset sign, then hours and minutes zero-padded. -/
def formatDate (d : GDate) : List Nat :=
  intDecimal d.secs ++ [32] ++
    (if d.offset < 0 then [45] else [43]) ++
    pad2 (d.offset.natAbs / 3600) ++ pad2 (d.offset.natAbs % 3600 / 60)

/-! ### Hash hex codec (src/protocol/hash.rs) -/

/-- Byte values of an ASCII string literal (a convenience for writing
byte vectors readably). -/
def strB (s : String) : List Nat := s.data.map Char.toNat

/-- Lowercase hex digit of a value below 16 (rustc-serialize `to_hex`). -/
def hexDigitLower (v : Nat) : Nat := if v < 10 then 48 + v else 87 + v

/-- The two lowercase hex digits of one byte. -/
def byteHex (b : Nat) : List Nat := [hexDigitLower (b / 16), hexDigitLower (b % 16)]

/-- `Hash::to_hexadecimal`: lowercase hex of the digest bytes. -/
def hexOfBytes (h : List Nat) : List Nat := (h.map byteHex).flatten

/-- Value of one hex digit byte (0-9, a-f, A-F). -/
def hexVal (c : Nat) : Nat :=
  if c ≤ 57 then c - 48 else if c ≤ 70 then c - 55 else c - 87

/-- `from_hex` pairing: consecutive digit pairs to bytes. -/
def hexPairsToBytes : List Nat → List Nat
  | a :: b :: rest => (hexVal a * 16 + hexVal b) :: hexPairsToBytes rest
  | _ => []

/-- Rust slice `&i[..n]`; `none` models the out-of-bounds panic. -/
def sliceTo (i : List Nat) (n : Nat) : Option (List Nat) :=
  if n ≤ i.length then some (i.take n) else none

/-- `decode_bytes_::<SHA1>` (src/protocol/hash.rs lines 158-170): slice
the first `digest_size` bytes out of the input with `&i[..size]`, call
`from_bytes` — which for the 20-byte digest succeeds exactly on 20
bytes, else the decoder reports `Incomplete` — and return the rest of
the slice as remainder. -/
def decodeBytes20 (i : List Nat) : PR (List Nat) :=
  match sliceTo i 20 with
  | none => .panicked
  | some input =>
    if input.length = 20 then .done (i.drop 20) input
    else .incomplete (some 20)

/-- `decode_hex_` for a 20-byte digest: nom `take_while1 is_hex_digit`,
then rustc-serialize `from_hex` (failing on an odd digit count) and
`from_bytes` (exactly 20 bytes); either failure is `Incomplete` with
the digest hex size. -/
def decodeHex20 (i : List Nat) : PR (List Nat) :=
  match i with
  | [] => .incomplete (some 1)
  | c :: _ =>
    if isHexB c then
      if (i.takeWhile isHexB).length % 2 = 0 ∧ (i.takeWhile isHexB).length / 2 = 20 then
        .done (i.dropWhile isHexB) (hexPairsToBytes (i.takeWhile isHexB))
      else .incomplete (some 40)
    else .perror

/-- nom `take_while1!(p)`. -/
def takeWhile1P (p : Nat → Bool) (i : List Nat) : PR (List Nat) :=
  match i with
  | [] => .incomplete (some 1)
  | c :: _ =>
    if p c then .done (i.dropWhile p) (i.takeWhile p) else .perror

/-! ### Person codec (src/object/person.rs) -/

/-- `git::object::person::Person`: a name, an email, a date. -/
structure GPerson where
  name : List Nat
  email : List Nat
  date : GDate
deriving DecidableEq, Repr

/-- `nom_parse_person`: the name up to the literal `" <"`, the email up
to the literal `"> "`, then the date. -/
def parsePerson (i : List Nat) : PR GPerson :=
  (takeUntilConsume [32, 60] i).bind fun i name =>
  (takeUntilConsume [62, 32] i).bind fun i email =>
  (parseDate i).bind fun i d =>
  .done i ⟨name, email, d⟩

/-- `Person`'s `Display` / `encode`: name, `" <"`, email, `"> "`, date. -/
def encodePerson (p : GPerson) : List Nat :=
  p.name ++ [32, 60] ++ p.email ++ [62, 32] ++ formatDate p.date

/-! ### Commit codec (src/object/commit.rs) -/

/-- `is_valid_encoding_char`: ASCII alphanumeric, space, tab, hyphen,
underscore. -/
def isEncChar (c : Nat) : Bool :=
  (48 ≤ c && c ≤ 57) || (65 ≤ c && c ≤ 90) || (97 ≤ c && c ≤ 122)
    || c == 32 || c == 9 || c == 45 || c == 95

/-- `git::object::commit::Commit`, over the 20-byte digest: hashes are
raw digest bytes, strings are byte lists, extras an ordered map. -/
structure GCommit where
  treeRef : List Nat
  parents : List (List Nat)
  author : GPerson
  committer : GPerson
  encoding : Option (List Nat)
  extras : List (List Nat × List Nat)
  message : List Nat
deriving DecidableEq, Repr

/-- `nom_parse_parent`: `"parent "`, a hex digest, a newline. -/
def parseParent (i : List Nat) : PR (List Nat) :=
  (tagP (strB "parent ") i).bind fun i _ =>
  (decodeHex20 i).bind fun i h =>
  (tagP [10] i).bind fun i _ => .done i h

/-- The while-let loop of `Parents::decode`, with the input length as
fuel: a successful `parseParent` consumes at least the seven tag bytes,
so the loop stops on a parse failure before the fuel runs out. -/
def parseParentsAux : Nat → List Nat → List (List Nat) → List Nat × List (List Nat)
  | 0, i, acc => (i, acc.reverse)
  | fuel + 1, i, acc =>
    match parseParent i with
    | .done i2 h => parseParentsAux fuel i2 (h :: acc)
    | _ => (i, acc.reverse)

/-- `Parents::decode`: zero or more parent lines, always `Done`. -/
def parseParents (i : List Nat) : List Nat × List (List Nat) :=
  parseParentsAux i.length i []

/-- `nom_parse_encoding`: `"encoding "` then a nonempty run of valid
encoding characters. -/
def parseEncoding (i : List Nat) : PR (List Nat) :=
  (tagP (strB "encoding ") i).bind fun i _ =>
  takeWhile1P isEncChar i

/-- The `opt!(chain!(e: nom_parse_encoding ~ char!('\n'), || e))` item
of the commit parser; nom `opt!` turns an `Error` into `Done None`
without consuming, and passes `Incomplete` through. -/
def parseEncodingLineOpt (i : List Nat) : PR (Option (List Nat)) :=
  match (parseEncoding i).bind fun i e => (tagP [10] i).bind fun i _ => .done i e with
  | .done i2 e => .done i2 (some e)
  | .perror => .done i none
  | .incomplete n => .incomplete n
  | .panicked => .panicked

/-- Byte-lexicographic order: the `Ord` of Rust `String` keys, and of
the byte strings backing single-component `PathBuf` names. -/
def lexLt : List Nat → List Nat → Bool
  | [], [] => false
  | [], _ :: _ => true
  | _ :: _, [] => false
  | a :: as, b :: bs => if a < b then true else if a = b then lexLt as bs else false

/-- `BTreeMap::insert` on the sorted association list modelling
`Extras`: keys kept in ascending order, an existing key's value is
replaced. -/
def extrasInsert : List (List Nat × List Nat) → List Nat → List Nat →
    List (List Nat × List Nat)
  | [], k, v => [(k, v)]
  | (k0, v0) :: rest, k, v =>
    if lexLt k k0 then (k, v) :: (k0, v0) :: rest
    else if k = k0 then (k, v) :: rest
    else (k0, v0) :: extrasInsert rest k v

/-- One continuation line of `parse_extra`: a space, a nonempty run of
valid characters, a newline. -/
def parseExtraLine (i : List Nat) : PR (List Nat) :=
  (tagP [32] i).bind fun i _ =>
  (takeWhile1P isEncChar i).bind fun i v =>
  (tagP [10] i).bind fun i _ => .done i v

/-- The `many0` over continuation lines in `parse_extra`, accumulating
each line followed by a newline into the value. -/
def parseExtraLinesAux : Nat → List Nat → List Nat → List Nat × List Nat
  | 0, i, acc => (i, acc)
  | fuel + 1, i, acc =>
    match parseExtraLine i with
    | .done i2 v => parseExtraLinesAux fuel i2 (acc ++ v ++ [10])
    | _ => (i, acc)

/-- `parse_extra`: a key line then its continuation lines. -/
def parseExtra (i : List Nat) : PR (List Nat × List Nat) :=
  (takeWhile1P isEncChar i).bind fun i k =>
  (tagP [10] i).bind fun i _ =>
  match parseExtraLinesAux i.length i [] with
  | (i2, acc) => .done i2 (k, acc)

/-- `nom_parse_extras`: `many0` of `parse_extra`, inserting each pair
into the map. -/
def parseExtrasAux : Nat → List Nat → List (List Nat × List Nat) →
    List Nat × List (List Nat × List Nat)
  | 0, i, acc => (i, acc)
  | fuel + 1, i, acc =>
    match parseExtra i with
    | .done i2 kv => parseExtrasAux fuel i2 (extrasInsert acc kv.1 kv.2)
    | _ => (i, acc)

/-- `Extras::decode`: zero or more extra headers, always `Done`. -/
def parseExtras (i : List Nat) : List Nat × List (List Nat × List Nat) :=
  parseExtrasAux i.length i []

/-- `nom_parse_commit` (src/object/commit.rs lines 282-308): the
`"commit <len>\x00"` head — the length is parsed and discarded — then
the tree line, the parent lines, author, committer, the optional
encoding line, the extras, and the whole rest as the message. -/
def parseCommit (b : List Nat) : PR GCommit :=
  (tagP (strB "commit ") b).bind fun b _ =>
  (parseNatDigits b).bind fun b _ =>
  (tagP [0] b).bind fun b _ =>
  (tagP (strB "tree ") b).bind fun b _ =>
  (decodeHex20 b).bind fun b tr =>
  (tagP [10] b).bind fun b _ =>
  match parseParents b with
  | (b, parents) =>
    (tagP (strB "author ") b).bind fun b _ =>
    (parsePerson b).bind fun b a =>
    (tagP [10] b).bind fun b _ =>
    (tagP (strB "committer ") b).bind fun b _ =>
    (parsePerson b).bind fun b c =>
    (tagP [10] b).bind fun b _ =>
    (parseEncodingLineOpt b).bind fun b en =>
    match parseExtras b with
    | (b, extras) =>
      .done [] ⟨tr, parents, a, c, en, extras, b⟩

/-- Rust `str::lines` on the byte representation: pieces split at each
newline, a final piece produced by a terminating newline dropped. -/
def linesOf (v : List Nat) : List (List Nat) :=
  let parts := v.splitOn 10
  if parts.getLast? = some [] then parts.dropLast else parts

/-- The parent lines as `Commit`'s `Display` renders them. -/
def parentsEncode (ps : List (List Nat)) : List Nat :=
  (ps.map (fun p => strB "parent " ++ hexOfBytes p ++ [10])).flatten

/-- The `Extras` rendering: each key line, then each line of the value
prefixed with one space, keys in map order. -/
def extrasRender (ex : List (List Nat × List Nat)) : List Nat :=
  (ex.map (fun kv =>
    kv.1 ++ [10] ++ ((linesOf kv.2).map (fun l => 32 :: (l ++ [10]))).flatten)).flatten

/-- `Commit`'s `Display` rendering — the payload that `encode` writes
after the `"commit <len>\x00"` header. -/
def commitPayload (c : GCommit) : List Nat :=
  strB "tree " ++ hexOfBytes c.treeRef ++ [10] ++
  parentsEncode c.parents ++
  strB "author " ++ encodePerson c.author ++ [10] ++
  strB "committer " ++ encodePerson c.committer ++ [10] ++
  (match c.encoding with
   | some e => strB "encoding " ++ e ++ [10]
   | none => []) ++
  extrasRender c.extras ++ c.message

/-- `Commit::encode`: the header with the payload's actual length,
then the payload. -/
def encodeCommit (c : GCommit) : List Nat :=
  strB "commit " ++ natDecimal (commitPayload c).length ++ [0] ++ commitPayload c

/-- Decode-then-encode composition on commit object bytes. -/
def commitRoundTrip (b : List Nat) : Option (List Nat) :=
  match parseCommit b with
  | .done _ c => some (encodeCommit c)
  | _ => none

/-- `Parents::required_size` (src/object/commit.rs lines 72-79): the
constant 7 plus `digest_hex_size + 1` per parent. -/
def parentsRequiredSize (ps : List (List Nat)) : Nat :=
  ps.foldl (fun sz _ => sz + (40 + 1)) 7

/-- `Person::required_size`: the rendered `"name <email> "` length plus
the date length. -/
def personRequiredSize (p : GPerson) : Nat :=
  (p.name ++ [32, 60] ++ p.email ++ [62, 32]).length + (formatDate p.date).length

/-- `Extras::required_size`. -/
def extrasRequiredSize (ex : List (List Nat × List Nat)) : Nat :=
  ex.foldl (fun sum kv =>
    sum + kv.1.length + 1 +
      (linesOf kv.2).foldl (fun s l => s + 1 + l.length + 1) 0) 0

/-- `Commit::required_size` (src/object/commit.rs lines 310-318). -/
def commitRequiredSize (c : GCommit) : Nat :=
  0 + 40 + 6
    + parentsRequiredSize c.parents
    + personRequiredSize c.author + 1
    + personRequiredSize c.committer + 1
    + (match c.encoding with
       | some e => e.length + 9 + 1
       | none => 0)
    + extrasRequiredSize c.extras
    + c.message.length

/-- The decoded regression vector (the base64 `SMOCK_TEST` constant of
src/object/commit.rs): a commit with one parent line, author and
committer dated `1480007832 +0100`, and no encoding or extras. -/
def commitRegressionValue : GCommit where
  treeRef := hexPairsToBytes (strB "2ef959163566f29b4a5acb8cbe217c8b036747bc")
  parents := [hexPairsToBytes (strB "1fa6811cf22a4cbef5bb28e68fe28d728cf2f64d")]
  author := ⟨strB "Nicolas Di Prima", strB "nicolas@di-prima.fr", ⟨1480007832, 3600⟩⟩
  committer := ⟨strB "Nicolas Di Prima", strB "nicolas@di-prima.fr", ⟨1480007832, 3600⟩⟩
  encoding := none
  extras := []
  message := strB "\nadd tree encoding\n"

/-- The byte string of the regression vector: a 242-byte payload after
the `"commit 242\x00"` header. -/
def commitRegressionVector : List Nat :=
  strB "commit 242\x00tree 2ef959163566f29b4a5acb8cbe217c8b036747bc\nparent 1fa6811cf22a4cbef5bb28e68fe28d728cf2f64d\nauthor Nicolas Di Prima <nicolas@di-prima.fr> 1480007832 +0100\ncommitter Nicolas Di Prima <nicolas@di-prima.fr> 1480007832 +0100\n\nadd tree encoding\n"

/-- The regression vector with its decimal length prefix altered from
242 to 243: the parser accepts it (the parsed length is discarded), and
re-encoding recomputes the true 242. -/
def commitWrongLenVector : List Nat :=
  strB "commit 243\x00tree 2ef959163566f29b4a5acb8cbe217c8b036747bc\nparent 1fa6811cf22a4cbef5bb28e68fe28d728cf2f64d\nauthor Nicolas Di Prima <nicolas@di-prima.fr> 1480007832 +0100\ncommitter Nicolas Di Prima <nicolas@di-prima.fr> 1480007832 +0100\n\nadd tree encoding\n"

/-! ### References and ref following (src/refs.rs, src/protocol/repo.rs,
src/repo.rs) -/

/-- `git::refs::SpecRef`: the structured symbolic names. -/
inductive SpecRefT where
  | tag : List Nat → SpecRefT
  | branch : List Nat → SpecRefT
  | remote : List Nat → List Nat → SpecRefT
  | patch : List Nat → SpecRefT
  | stash : SpecRefT
  | head : SpecRefT
  | originHead : SpecRefT
  | fetchHead : SpecRefT
deriving DecidableEq, Repr

/-- `git::refs::Ref`: a resolved digest or a symbolic link. -/
inductive RefT where
  | hashRef : List Nat → RefT
  | link : SpecRefT → RefT
deriving DecidableEq, Repr

/-- The error sum (src/error.rs), restricted to the kinds the claims
touch; paths are lists of path components (byte strings). -/
inductive GitErrorM where
  | invalidRef : List (List Nat) → GitErrorM
  | missingFile : List (List Nat) → GitErrorM
  | ioError : GitErrorM
  | parsingError : GitErrorM
  | parsingErrorNotEnough : Option Nat → GitErrorM
deriving DecidableEq, Repr

/-- Abstract repository for ref resolution: what `get_ref` answers for
each `SpecRef` (the parsed content of the ref file at its path). -/
def RefStore : Type := SpecRefT → Except GitErrorM RefT

/-- The fuel-indexed unfolding of `Repo::get_ref_follow_links`
(src/protocol/repo.rs lines 28-36 and src/repo.rs lines 13-18): the
code recurses on every `Ref::Link` with no depth bound, so `none` means
the recursion is still running after the given number of unfoldings.
The true (unbounded) behaviour is the limit: a result the code returns
appears at every large enough fuel, and a chain on which every fuel
yields `none` makes the code recurse forever. -/
def getRefFollowLinksFuel (repo : RefStore) :
    Nat → SpecRefT → Option (Except GitErrorM (List Nat))
  | 0, _ => none
  | fuel + 1, r =>
    match repo r with
    | .error e => some (.error e)
    | .ok (.hashRef h) => some (.ok h)
    | .ok (.link r2) => getRefFollowLinksFuel repo fuel r2

/-- A repository whose `HEAD` file is a symbolic ref to itself — the
simplest cyclic ref chain (every other name resolved, to make the
cycle the only pathology). -/
def cyclicRefStore : RefStore := fun r =>
  match r with
  | .head => .ok (.link .head)
  | _ => .ok (.hashRef (List.replicate 20 0))

/-! ### Hash-prefix lookup (src/fs/mod.rs lines 172-185) -/

/-- What `lookup_hash` can observe of a repository: the loose-object
digests (the `objects/<xx>/<yyyy>` file names) and, for each packfile
index under `objects/pack/`, the hash table of the parsed index. -/
structure ObjectStore where
  loose : List (List Nat)
  packs : List (List (List Nat))

/-- `Partial::is_prefix_of`: the stored hex prefix tested against
`to_hexadecimal()` of the candidate. -/
def isPrefixOfHash (pfx : List Nat) (h : List Nat) : Bool :=
  pfx.isPrefixOf (hexOfBytes h)

/-- `GitFS::lookup_hash`: the `looses` accumulator starts empty — the
statement gathering the loose objects is commented out in the source —
and each listed pack index contributes its hashes filtered by the
prefix. -/
def lookupHash (store : ObjectStore) (pfx : List Nat) : List (List Nat) :=
  store.packs.foldl (fun looses hs => looses ++ hs.filter (isPrefixOfHash pfx)) []

/-- Modelled from the spec (§4.13, hash-prefix lookup), for comparison
with `lookupHash`: gather candidates from (a) the loose-object
directory file names matching the prefix and (b) every packfile index,
returning the union. -/
def lookupHashSpec (store : ObjectStore) (pfx : List Nat) : List (List Nat) :=
  store.loose.filter (isPrefixOfHash pfx) ++
    store.packs.foldl (fun acc hs => acc ++ hs.filter (isPrefixOfHash pfx)) []

/-- A digest whose hex form starts with `b1c` (the loose object of the
spec's scenario S5). -/
def looseHashB1C : List Nat := 177 :: 194 :: List.replicate 18 0

/-- The S5 repository: one matching loose object, no pack index. -/
def looseOnlyStore : ObjectStore := ⟨[looseHashB1C], []⟩

/-! ### Loose-object fetch (src/fs/mod.rs lines 145-170) -/

/-- Abstract file system: a repository root path and the contents of
each file (`none` when the path is not a file). -/
structure FSModel where
  gitPath : List (List Nat)
  files : List (List Nat) → Option (List Nat)

/-- The loose-object path `objects/<hex[0..2]>/<hex[2..]>` that
`get_object` builds by `split_at(2)` on the hex digest. -/
def objectPathOf (gitPath : List (List Nat)) (h : List Nat) : List (List Nat) :=
  gitPath ++ [strB "objects", (hexOfBytes h).take 2, (hexOfBytes h).drop 2]

/-- `Repo::get_object` for `GitFS` (src/fs/mod.rs lines 145-170),
parameterised over the zlib inflater and the payload decoder (external
collaborators that the early branches never reach); `none` models a
panic inside the decoder. -/
def getObject {α : Type} (fs : FSModel)
    (inflate : List Nat → Option (List Nat)) (dec : List Nat → PR α)
    (h : List Nat) : Option (Except GitErrorM α) :=
  match fs.files (objectPathOf fs.gitPath h) with
  | none => some (.error (.invalidRef (objectPathOf fs.gitPath h)))
  | some raw =>
    match inflate raw with
    | none => some (.error .ioError)
    | some s =>
      match dec s with
      | .done _ v => some (.ok v)
      | .perror => some (.error .parsingError)
      | .incomplete _ => some (.error (.parsingErrorNotEnough none))
      | .panicked => none

/-- The files `get_object` opens: none when the `is_file` check fails,
otherwise exactly the object file (opened before inflating). -/
def getObjectOpens (fs : FSModel) (h : List Nat) : List (List (List Nat)) :=
  match fs.files (objectPathOf fs.gitPath h) with
  | none => []
  | some _ => [objectPathOf fs.gitPath h]

/-! ### Tree entries and trees (src/object/tree.rs) -/

/-- One `PermissionSet`: the Read / Write / Executable flags. -/
structure PermSet where
  read : Bool
  write : Bool
  exec : Bool
deriving DecidableEq, Repr

/-- `PermissionSet::new_from_byte`: an octal digit byte to flags; any
other byte gives the empty set. -/
def permSetFromByte (b : Nat) : PermSet :=
  if b = 49 then ⟨false, false, true⟩
  else if b = 50 then ⟨false, true, false⟩
  else if b = 51 then ⟨false, true, true⟩
  else if b = 52 then ⟨true, false, false⟩
  else if b = 53 then ⟨true, false, true⟩
  else if b = 54 then ⟨true, true, false⟩
  else if b = 55 then ⟨true, true, true⟩
  else ⟨false, false, false⟩

/-- `permission_write`: the octal digit value `4·Read + 2·Write +
1·Executable`. -/
def permWrite (p : PermSet) : Nat :=
  (if p.read then 4 else 0) + (if p.write then 2 else 0) + (if p.exec then 1 else 0)

/-- `Permissions`: user, group, other. -/
structure GPerms where
  user : PermSet
  group : PermSet
  other : PermSet
deriving DecidableEq, Repr

/-- `tree_ent_parse_permissions`: the literal `'0'`, then one byte per
permission set. -/
def parsePermissions (i : List Nat) : PR GPerms :=
  (tagP [48] i).bind fun i _ =>
  match i with
  | u :: g :: o :: rest =>
    .done rest ⟨permSetFromByte u, permSetFromByte g, permSetFromByte o⟩
  | _ => .incomplete (some 1)

/-- `Permissions`' `Display`: `'0'` then the three octal digits. -/
def encodePermissions (p : GPerms) : List Nat :=
  [48, 48 + permWrite p.user, 48 + permWrite p.group, 48 + permWrite p.other]

/-- `git::object::tree::TreeEnt` (final revision): a subtree or a blob
entry, each with permissions, a path name, and a digest. -/
inductive GTreeEnt where
  | tree : GPerms → List Nat → List Nat → GTreeEnt
  | blob : GPerms → List Nat → List Nat → GTreeEnt
deriving DecidableEq, Repr

/-- `TreeEnt::get_file_path`. -/
def GTreeEnt.path : GTreeEnt → List Nat
  | .tree _ p _ => p
  | .blob _ p _ => p

/-- The `alt!(tag!("4") | tag!("10"))` type-digit parser: the two tags
share no common prefix, so the alternative order cannot change which
inputs match; nom tries the next branch on `Error` and returns early
otherwise. -/
def parseTreeEntType (i : List Nat) : PR (List Nat) :=
  match tagP [52] i with
  | .done i2 _ => .done i2 [52]
  | .perror =>
    (match tagP [49, 48] i with
     | .done i2 _ => .done i2 [49, 48]
     | .perror => .perror
     | .incomplete n => .incomplete n
     | .panicked => .panicked)
  | .incomplete n => .incomplete n
  | .panicked => .panicked

/-- `TreeEnt::decode` (via `nom_parse_tree_ent_head` and
`new_from`): the type digits, permissions, a space, the name up to a
NUL, then the raw digest bytes; `"10"` builds a `Blob` entry and `"4"`
a `Tree` entry. -/
def parseTreeEnt (i : List Nat) : PR GTreeEnt :=
  (parseTreeEntType i).bind fun i ty =>
  (parsePermissions i).bind fun i perm =>
  (tagP [32] i).bind fun i _ =>
  (takeUntilConsume [0] i).bind fun i name =>
  (decodeBytes20 i).bind fun i h =>
  .done i (if ty = [49, 48] then .blob perm name h else .tree perm name h)

/-- `TreeEnt::encode`: the type digits (`get_ent_type`: `Tree → "4"`,
`Blob → "10"`), the permissions, a space, the name, a NUL, then the raw
digest bytes. -/
def encodeTreeEnt : GTreeEnt → List Nat
  | .tree p name h => [52] ++ encodePermissions p ++ [32] ++ name ++ [0] ++ h
  | .blob p name h => [49, 48] ++ encodePermissions p ++ [32] ++ name ++ [0] ++ h

/-- `TreeEnt::required_size`: the rendered head plus `digest_size`. -/
def treeEntRequiredSize : GTreeEnt → Nat
  | .tree _ name _ => 1 + 4 + 1 + name.length + 1 + 20
  | .blob _ name _ => 2 + 4 + 1 + name.length + 1 + 20

/-- `BTreeSet::<TreeEnt>::insert` on the name-sorted entry list
(`Ord for TreeEnt` compares only the file path): when an entry with an
equal path is present the set is returned unchanged — `insert` does
not replace. -/
def treeInsert : List GTreeEnt → GTreeEnt → List GTreeEnt
  | [], e => [e]
  | x :: xs, e =>
    if lexLt e.path x.path then e :: x :: xs
    else if e.path = x.path then x :: xs
    else x :: treeInsert xs e

/-- A tree built from `Tree::new` by repeated `insert` — the public
construction path (also `FromIterator`). -/
def mkTree (l : List GTreeEnt) : List GTreeEnt := l.foldl treeInsert []

/-- `Tree::encode`: the `"tree <len>\x00"` header with the summed entry
sizes, then each entry in set order. -/
def encodeTree (t : List GTreeEnt) : List Nat :=
  strB "tree " ++ natDecimal (t.foldl (fun s e => s + treeEntRequiredSize e) 0)
    ++ [0] ++ (t.map encodeTreeEnt).flatten

/-- `Permissions::default_file` (octal 644). -/
def permsDefaultFile : GPerms :=
  ⟨permSetFromByte 54, permSetFromByte 52, permSetFromByte 52⟩

/-- `Permissions::default_dir` (all empty). -/
def permsDefaultDir : GPerms :=
  ⟨permSetFromByte 48, permSetFromByte 48, permSetFromByte 48⟩

/-- A repository directory with no object files at all. -/
def emptyFS : FSModel := ⟨[strB ".git"], fun _ => none⟩

/-- A blob entry named `README.md` (witness data). -/
def witEntA : GTreeEnt := .blob permsDefaultFile (strB "README.md") (List.replicate 20 1)

/-- A tree entry named `src` (witness data). -/
def witEntB : GTreeEnt := .tree permsDefaultDir (strB "src") (List.replicate 20 2)

/-- A blob entry with `witEntA`'s name but a different digest. -/
def witEntA2 : GTreeEnt := .blob permsDefaultFile (strB "README.md") (List.replicate 20 9)

/-! ### Packfile index (src/fs/pack/index.rs) -/

/-- nom `u32!(Big)`: four bytes, big-endian. -/
def parseU32 (i : List Nat) : PR Nat :=
  match i with
  | a :: b :: c :: d :: rest => .done rest (((a * 256 + b) * 256 + c) * 256 + d)
  | _ => .incomplete (some 4)

/-- nom `u64!(Big)`: eight bytes, big-endian. -/
def parseU64 (i : List Nat) : PR Nat :=
  match i with
  | a :: b :: c :: d :: e :: f :: g :: h :: rest =>
    .done rest
      ((((((a * 256 + b) * 256 + c) * 256 + d) * 256 + e) * 256 + f)
        * 256 * 256 + g * 256 + h)
  | _ => .incomplete (some 8)

/-- nom `count!(p, n)`: apply `p` exactly `n` times. -/
def countP {α : Type} (p : List Nat → PR α) : Nat → List Nat → PR (List α)
  | 0, i => .done i []
  | n + 1, i =>
    (p i).bind fun i v =>
    (countP p n i).bind fun i vs => .done i (v :: vs)

/-- The pack-index `Header`: magic, version, the 256-entry fanout. -/
structure IdxHeader where
  magic : Nat
  version : Nat
  fanouts : List Nat
deriving DecidableEq, Repr

/-- `nom_parse_index_header`. -/
def parseIndexHeader (i : List Nat) : PR IdxHeader :=
  (parseU32 i).bind fun i m =>
  (parseU32 i).bind fun i v =>
  (countP parseU32 256 i).bind fun i fo => .done i ⟨m, v, fo⟩

/-- `Header::size`: `fanouts[255]`, the object count. -/
def idxSize (h : IdxHeader) : Nat := h.fanouts.getD 255 0

/-- The offset-fixup loop of `parse_index` (lines 166-174): walk the
small-offset table in order; each entry with the high bit set — for a
u32 read from four bytes, a value of at least `2^31` — is replaced by
the NEXT sequential 8-byte big-endian value consumed from the input.
The low 31 bits of the flagged entry are never consulted. -/
def resolveOffsetsLoop : List Nat → List Nat → PR (List Nat)
  | [], i => .done i []
  | u :: us, i =>
    if 2 ^ 31 ≤ u then
      (parseU64 i).bind fun i large =>
      (resolveOffsetsLoop us i).bind fun i vs => .done i (large :: vs)
    else
      (resolveOffsetsLoop us i).bind fun i vs => .done i (u :: vs)

/-- The parsed `Index` value. -/
structure GIndex where
  header : IdxHeader
  hashes : List (List Nat)
  crcs : List Nat
  offsets : List Nat
  pack : List Nat
  idx : List Nat
deriving DecidableEq, Repr

/-- `parse_index` (src/fs/pack/index.rs lines 162-178): header, hash
table, CRC table, small-offset table, the offset fixup, then the pack
and index trailer hashes. -/
def parseIndex (i : List Nat) : PR GIndex :=
  (parseIndexHeader i).bind fun i header =>
  (countP decodeBytes20 (idxSize header) i).bind fun i hashes =>
  (countP parseU32 (idxSize header) i).bind fun i crcs =>
  (countP parseU32 (idxSize header) i).bind fun i smalls =>
  (resolveOffsetsLoop smalls i).bind fun i offsets =>
  (decodeBytes20 i).bind fun i pack =>
  (decodeBytes20 i).bind fun i idx =>
  .done i ⟨header, hashes, crcs, offsets, pack, idx⟩

/-- The offsets table of a parsed index, when parsing succeeds. -/
def parseIndexOffsets (b : List Nat) : Option (List Nat) :=
  match parseIndex b with
  | .done _ idx => some idx.offsets
  | _ => none

/-- Modelled from the spec (§4.12), for comparison with the fixup loop
of `parse_index`: a flagged small offset selects the large-offset-table
entry indexed by its low 31 bits; an unflagged value is the offset. -/
def resolveOffsetsSpec (smalls largeTable : List Nat) : List Nat :=
  smalls.map fun u => if 2 ^ 31 ≤ u then largeTable.getD (u - 2 ^ 31) 0 else u

/-- A structurally well-formed two-object index whose two flagged small
offsets reference the large-offset slots in reverse order: small table
`[0x80000001, 0x80000000]` (entry 0 names slot 1, entry 1 names
slot 0), large table `[100, 200]`.  Both hashes start with byte 0, so
the all-2 fanout is consistent and the hash table ascending; the
trailer hashes are stored by the parser, never verified. -/
def idxFailingInput : List Nat :=
  [255, 116, 79, 99] ++ [0, 0, 0, 2] ++
  (List.replicate 256 [0, 0, 0, 2]).flatten ++
  (List.replicate 19 0 ++ [1]) ++ (List.replicate 19 0 ++ [2]) ++
  [0, 0, 0, 0] ++ [0, 0, 0, 0] ++
  [128, 0, 0, 1] ++ [128, 0, 0, 0] ++
  [0, 0, 0, 0, 0, 0, 0, 100] ++ [0, 0, 0, 0, 0, 0, 0, 200] ++
  List.replicate 20 3 ++ List.replicate 20 4

/-- The fuelled digit worker ignores the fuel above the value. -/
theorem natDecimalAux_congr (n : Nat) : ∀ f1 f2 : Nat, n < f1 → n < f2 →
    natDecimalAux f1 n = natDecimalAux f2 n := by
  induction n using Nat.strong_induction_on with
  | _ n ih =>
    intro f1 f2 h1 h2
    match f1, f2 with
    | g1 + 1, g2 + 1 =>
      simp only [natDecimalAux]
      by_cases h : n < 10
      · simp [h]
      · rw [if_neg h, if_neg h]
        have hlt : n / 10 < n := Nat.div_lt_self (by omega) (by omega)
        rw [ih (n / 10) hlt (g1) (g2) (by omega) (by omega)]

/-- The recursion equation of the decimal rendering. -/
theorem natDecimal_eq (n : Nat) :
    natDecimal n = if n < 10 then [48 + n] else natDecimal (n / 10) ++ [48 + n % 10] := by
  by_cases h : n < 10
  · rw [if_pos h]
    unfold natDecimal
    simp only [natDecimalAux]
    rw [if_pos h]
  · rw [if_neg h]
    show natDecimalAux (n + 1) n = natDecimalAux (n / 10 + 1) (n / 10) ++ [48 + n % 10]
    have hstep : natDecimalAux (n + 1) n =
        natDecimalAux n (n / 10) ++ [48 + n % 10] := by
      simp only [natDecimalAux]
      rw [if_neg h]
    rw [hstep]
    have hlt : n / 10 < n := Nat.div_lt_self (by omega) (by omega)
    rw [natDecimalAux_congr (n / 10) n (n / 10 + 1) (by omega) (by omega)]

/-- All elements of a digit rendering are ASCII digits. -/
theorem natDecimal_digits (n : Nat) : ∀ c ∈ natDecimal n, isDigitB c = true := by
  induction n using Nat.strong_induction_on with
  | _ n ih =>
    rw [natDecimal_eq]
    by_cases h : n < 10
    · rw [if_pos h]
      intro c hc
      simp only [List.mem_singleton] at hc
      subst hc
      simp [isDigitB]
      omega
    · rw [if_neg h]
      intro c hc
      rcases List.mem_append.1 hc with h1 | h2
      · exact ih (n / 10) (Nat.div_lt_self (by omega) (by omega)) c h1
      · simp only [List.mem_singleton] at h2
        subst h2
        simp [isDigitB]
        omega

/-- A digit rendering is never empty. -/
theorem natDecimal_ne_nil (n : Nat) : natDecimal n ≠ [] := by
  rw [natDecimal_eq]
  by_cases h : n < 10 <;> simp [h]

/-- Folding the decimal value from an initial accumulator. -/
theorem digitsVal_from (a : Nat) (l : List Nat) :
    l.foldl (fun a c => a * 10 + (c - 48)) a =
      a * 10 ^ l.length + digitsVal l := by
  induction l generalizing a with
  | nil => simp [digitsVal]
  | cons c cs ih =>
    simp only [List.foldl_cons, digitsVal, List.length_cons]
    rw [ih (a * 10 + (c - 48)), ih (0 * 10 + (c - 48))]
    ring

/-- Parsing back the decimal rendering of `n` gives `n`. -/
theorem digitsVal_natDecimal (n : Nat) : digitsVal (natDecimal n) = n := by
  induction n using Nat.strong_induction_on with
  | _ n ih =>
    rw [natDecimal_eq]
    by_cases h : n < 10
    · simp [h, digitsVal]
    · rw [if_neg h]
      unfold digitsVal
      rw [List.foldl_append]
      have := ih (n / 10) (Nat.div_lt_self (by omega) (by omega))
      unfold digitsVal at this
      rw [this]
      simp only [List.foldl_cons, List.foldl_nil]
      have h2 : n % 10 < 10 := Nat.mod_lt _ (by omega)
      omega

theorem takeWhile_append_of_all {p : Nat → Bool} {l r : List Nat}
    (hl : ∀ c ∈ l, p c = true) :
    (l ++ r).takeWhile p = l ++ r.takeWhile p := by
  induction l with
  | nil => simp
  | cons c cs ih =>
    have hc : p c = true := hl c (List.mem_cons_self c cs)
    simp [List.takeWhile_cons, hc, ih (fun x hx => hl x (List.mem_cons_of_mem c hx))]

theorem dropWhile_append_of_all {p : Nat → Bool} {l r : List Nat}
    (hl : ∀ c ∈ l, p c = true) :
    (l ++ r).dropWhile p = r.dropWhile p := by
  induction l with
  | nil => simp
  | cons c cs ih =>
    simp only [List.cons_append, List.dropWhile_cons, hl c (List.mem_cons_self c cs)]
    exact ih (fun x hx => hl x (List.mem_cons_of_mem c hx))

/-- `parseNatDigits` on an all-digit run followed by a digit-free rest. -/
theorem parseNatDigits_append_of_digits (l rest : List Nat) (hne : l ≠ [])
    (hdig : ∀ c ∈ l, isDigitB c = true)
    (h1 : rest.takeWhile isDigitB = []) (h2 : rest.dropWhile isDigitB = rest) :
    parseNatDigits (l ++ rest) = .done rest (digitsVal l) := by
  rcases l with _ | ⟨c, cs⟩
  · exact absurd rfl hne
  · have hc : isDigitB c = true := hdig c (List.mem_cons_self c cs)
    have ht := takeWhile_append_of_all (l := c :: cs) (r := rest) hdig
    have hd := dropWhile_append_of_all (l := c :: cs) (r := rest) hdig
    rw [h1, List.append_nil] at ht
    rw [h2] at hd
    simp only [List.cons_append] at ht hd ⊢
    unfold parseNatDigits
    simp only [hc, if_true]
    rw [ht, hd]

theorem pad2_digits (v : Nat) : ∀ c ∈ pad2 v, isDigitB c = true := by
  unfold pad2
  by_cases h : v < 10
  · simp only [h, if_pos]
    intro c hc
    have hcv : c = 48 ∨ c = 48 + v := by simpa using hc
    rcases hcv with rfl | rfl <;> simp [isDigitB] <;> omega
  · simp only [h, if_neg, not_false_iff]
    exact natDecimal_digits v

theorem pad2_val (v : Nat) (hv : v ≤ 99) : digitsVal (pad2 v) = v := by
  unfold pad2
  by_cases h : v < 10
  · simp [h, digitsVal]
  · simp only [h, if_neg, not_false_iff]
    exact digitsVal_natDecimal v

theorem pad2_length (v : Nat) (hv : v ≤ 99) : (pad2 v).length = 2 := by
  unfold pad2
  by_cases h : v < 10
  · simp [h]
  · rw [if_neg h, natDecimal_eq, if_neg h, natDecimal_eq]
    have hd : v / 10 < 10 := by omega
    simp [hd]

/-- The four offset digits `HHMM` parse back to the value `h*100 + m`. -/
theorem digitsVal_pad2_pair (a b : Nat) (ha : a ≤ 99) (hb : b ≤ 99) :
    digitsVal (pad2 a ++ pad2 b) = a * 100 + b := by
  unfold digitsVal
  rw [List.foldl_append]
  have h1 : (pad2 a).foldl (fun a c => a * 10 + (c - 48)) 0 = a := pad2_val a ha
  rw [h1, digitsVal_from, pad2_length b hb, pad2_val b hb]
  ring

/-- `parseNatDigits` on a decimal rendering followed by a non-digit. -/
theorem parseNatDigits_natDecimal (n : Nat) (rest : List Nat)
    (h1 : rest.takeWhile isDigitB = []) (h2 : rest.dropWhile isDigitB = rest) :
    parseNatDigits (natDecimal n ++ rest) = .done rest n := by
  rw [parseNatDigits_append_of_digits _ _ (natDecimal_ne_nil n)
        (natDecimal_digits n) h1 h2, digitsVal_natDecimal]

theorem PR.bind_done {α β : Type} (i : List Nat) (v : α)
    (f : List Nat → α → PR β) : (PR.done i v).bind f = f i v := rfl

theorem tagP_single (b : Nat) (l : List Nat) : tagP [b] (b :: l) = .done l () := by
  unfold tagP
  have h : ¬ (b :: l).length < [b].length := by simp
  rw [if_neg h]
  simp

theorem parseTimeZoneSign_plus (l : List Nat) :
    parseTimeZoneSign (43 :: l) = .done l true := rfl

theorem parseTimeZoneSign_minus (l : List Nat) :
    parseTimeZoneSign (45 :: l) = .done l false := rfl

theorem takeWhile_cons_not (c : Nat) (l : List Nat) (h : isDigitB c = false) :
    (c :: l).takeWhile isDigitB = [] := by
  simp [List.takeWhile_cons, h]

theorem dropWhile_cons_not (c : Nat) (l : List Nat) (h : isDigitB c = false) :
    (c :: l).dropWhile isDigitB = c :: l := by
  simp [List.dropWhile_cons, h]

/-- Core of the date round trip, split on the offset sign. -/
theorem parseDate_formatDate (d : GDate) (hs : 0 ≤ d.secs)
    (hm : d.offset % 60 = 0) (hb : d.offset.natAbs < 86400) :
    parseDate (formatDate d) = .done [] d := by
  have h32 : isDigitB 32 = false := rfl
  have hh99 : d.offset.natAbs / 3600 ≤ 99 := by omega
  have mm59 : d.offset.natAbs % 3600 / 60 ≤ 59 := by omega
  have h60 : d.offset.natAbs % 60 = 0 := by
    have h1 : (60 : Int) ∣ d.offset := Int.dvd_of_emod_eq_zero hm
    have h2 : (60 : Nat) ∣ d.offset.natAbs := by
      have := Int.natAbs_dvd_natAbs.mpr h1
      simpa using this
    omega
  have hsecs : intDecimal d.secs = natDecimal d.secs.toNat := by
    unfold intDecimal
    rw [if_neg (by omega)]
  have hdigits := parseNatDigits_append_of_digits
      (pad2 (d.offset.natAbs / 3600) ++ pad2 (d.offset.natAbs % 3600 / 60)) []
      (by
        intro hcontra
        have := pad2_length (d.offset.natAbs / 3600) hh99
        rw [List.append_eq_nil] at hcontra
        rw [hcontra.1] at this
        simp at this)
      (by
        intro c hc
        rcases List.mem_append.1 hc with h | h
        · exact pad2_digits _ c h
        · exact pad2_digits _ c h)
      rfl rfl
  rw [List.append_nil] at hdigits
  rw [digitsVal_pad2_pair _ _ hh99 (by omega)] at hdigits
  have hdm :
      ((d.offset.natAbs / 3600) * 100 + d.offset.natAbs % 3600 / 60) / 100
        = d.offset.natAbs / 3600 := by omega
  have hdm2 :
      ((d.offset.natAbs / 3600) * 100 + d.offset.natAbs % 3600 / 60) % 100
        = d.offset.natAbs % 3600 / 60 := by omega
  have hoffv :
      (d.offset.natAbs / 3600) * 3600 + (d.offset.natAbs % 3600 / 60) * 60
        = d.offset.natAbs := by omega
  by_cases hneg : d.offset < 0
  · have hfmt : formatDate d =
        natDecimal d.secs.toNat ++
          (32 :: 45 :: (pad2 (d.offset.natAbs / 3600) ++
            pad2 (d.offset.natAbs % 3600 / 60))) := by
      unfold formatDate
      rw [hsecs, if_pos hneg]
      simp
    rw [hfmt]
    unfold parseDate
    rw [parseNatDigits_natDecimal _ _ (takeWhile_cons_not 32 _ h32)
        (dropWhile_cons_not 32 _ h32), PR.bind_done, tagP_single,
        PR.bind_done, parseTimeZoneSign_minus, PR.bind_done, hdigits,
        PR.bind_done, hdm, hdm2, hoffv]
    unfold fixedOffset
    rw [if_neg (by omega)]
    have hval : (⟨(d.secs.toNat : Int), -(d.offset.natAbs : Int)⟩ : GDate) = d := by
      have h1 : (d.secs.toNat : Int) = d.secs := Int.toNat_of_nonneg hs
      have h2 : -(d.offset.natAbs : Int) = d.offset := by omega
      rw [GDate.mk.injEq]
      exact ⟨h1, h2⟩
    show PR.done [] ⟨(d.secs.toNat : Int), -(d.offset.natAbs : Int)⟩ = PR.done [] d
    rw [hval]
  · have hfmt : formatDate d =
        natDecimal d.secs.toNat ++
          (32 :: 43 :: (pad2 (d.offset.natAbs / 3600) ++
            pad2 (d.offset.natAbs % 3600 / 60))) := by
      unfold formatDate
      rw [hsecs, if_neg hneg]
      simp
    rw [hfmt]
    unfold parseDate
    rw [parseNatDigits_natDecimal _ _ (takeWhile_cons_not 32 _ h32)
        (dropWhile_cons_not 32 _ h32), PR.bind_done, tagP_single,
        PR.bind_done, parseTimeZoneSign_plus, PR.bind_done, hdigits,
        PR.bind_done, hdm, hdm2, hoffv]
    unfold fixedOffset
    rw [if_neg (by omega)]
    have hval : (⟨(d.secs.toNat : Int), (d.offset.natAbs : Int)⟩ : GDate) = d := by
      have h1 : (d.secs.toNat : Int) = d.secs := Int.toNat_of_nonneg hs
      have h2 : ((d.offset.natAbs : Int)) = d.offset := by omega
      rw [GDate.mk.injEq]
      exact ⟨h1, h2⟩
    show PR.done [] ⟨(d.secs.toNat : Int), (d.offset.natAbs : Int)⟩ = PR.done [] d
    rw [hval]

/-- C6, counterexample: the date codec does NOT round-trip the full
signed range.  For the date with seconds = -1 (offset +0000) the
formatter emits `-1 +0000`, and the parser — whose seconds field is
nom `digit`, unsigned — fails with a syntax error rather than
reproducing the date. -/
theorem claim_C6_counterexample :
    parseDate (formatDate ⟨-1, 0⟩) = .perror ∧
      parseDate (formatDate ⟨-1, 0⟩) ≠ .done [] (⟨-1, 0⟩ : GDate) := by
  constructor
  · decide
  · decide

/-- C6 (amended): the seconds field of a date is parsed as an unsigned
decimal integer, followed by a space and an optionally signed `HHMM`
timezone; parse ∘ format is the identity for every date with
nonnegative seconds whose offset is a whole number of minutes smaller
than a day (every offset the textual form can carry).  The seconds
bound keeps the date inside chrono's calendar range, where the
embedding is exact (see `parseDate`). -/
theorem claim_C6_date_roundtrip (d : GDate) (hs : 0 ≤ d.secs)
    (hrange : d.secs ≤ 8000000000000)
    (hm : d.offset % 60 = 0) (hb : d.offset.natAbs < 86400) :
    parseDate (formatDate d) = .done [] d :=
  parseDate_formatDate d hs hm hb

/-- Witness for C6 at the regression date `1480007832 +0100`. -/
theorem claim_C6_date_roundtrip_witness :
    0 ≤ (1480007832 : Int) ∧ (1480007832 : Int) ≤ 8000000000000 ∧
      (3600 : Int) % 60 = 0 ∧ (3600 : Int).natAbs < 86400 ∧
      parseDate (formatDate ⟨1480007832, 3600⟩) =
        .done [] (⟨1480007832, 3600⟩ : GDate) :=
  ⟨by decide, by decide, by decide, by decide,
    claim_C6_date_roundtrip ⟨1480007832, 3600⟩ (by decide) (by decide)
      (by decide) (by decide)⟩

set_option maxRecDepth 10000

/-- C1, counterexample: the byte-exact round trip does not hold for
every byte string that parses as a commit.  The regression vector with
its length prefix altered from 242 to 243 still parses — the commit
parser discards the parsed length — and re-encoding recomputes the
true length, returning the unaltered vector instead of the input. -/
theorem claim_C1_counterexample :
    commitRoundTrip commitWrongLenVector = some commitRegressionVector ∧
      commitWrongLenVector ≠ commitRegressionVector := by
  constructor
  · decide
  · decide

/-- C1 (amended): decoding the regression vector of the source — a
commit with one parent line, author and committer dated
`1480007832 +0100`, message `"\nadd tree encoding\n"` after the blank
line — and re-encoding it yields the original 253 bytes exactly. -/
theorem claim_C1_commit_regression_roundtrip :
    commitRoundTrip commitRegressionVector = some commitRegressionVector := by
  decide

/-- C5 (code_bug evidence): `Commit::required_size` does not return the
payload length that `encode` writes.  On the decoded regression commit
(one parent) the payload is 242 bytes — `encode` writes the header
`"commit 242\x00"` — but `required_size` returns 225: the renderer
writes the `"author "` and `"committer "` tag bytes (7 + 10) that
`required_size` never counts, and `Parents::required_size` is
`7 + 41·n` while the rendered parent lines occupy `48·n` bytes, exact
only at n = 1. -/
theorem claim_C5_required_size_mismatch :
    parseCommit commitRegressionVector = .done [] commitRegressionValue ∧
      encodeCommit commitRegressionValue = commitRegressionVector ∧
      (commitPayload commitRegressionValue).length = 242 ∧
      commitRequiredSize commitRegressionValue = 225 ∧
      parentsRequiredSize [] = 7 ∧ (parentsEncode []).length = 0 ∧
      parentsRequiredSize [commitRegressionValue.treeRef,
        commitRegressionValue.treeRef] = 89 ∧
      (parentsEncode [commitRegressionValue.treeRef,
        commitRegressionValue.treeRef]).length = 96 := by
  refine ⟨by decide, by decide, by decide, by decide, by decide, by decide,
    by decide, by decide⟩

/-- C9 (code_bug evidence): `decode_bytes_` begins with the slice
`&i[..digest_size]`; on an input shorter than the digest size that
index is out of bounds and the decoder panics instead of returning
`Incomplete`.  On a long enough input it returns `Done` with the
remainder. -/
theorem claim_C9_decode_bytes_short_input :
    decodeBytes20 [] = .panicked ∧
      decodeBytes20 (List.replicate 19 0) = .panicked ∧
      decodeBytes20 (List.replicate 21 7) = .done [7] (List.replicate 20 7) := by
  refine ⟨by decide, by decide, by decide⟩

theorem lexLt_irrefl (a : List Nat) : lexLt a a = false := by
  induction a with
  | nil => rfl
  | cons c cs ih => simp [lexLt, ih]

theorem lexLt_ne {a b : List Nat} (h : lexLt a b = true) : a ≠ b := by
  intro heq
  subst heq
  rw [lexLt_irrefl] at h
  cases h

theorem lexLt_trans : ∀ a b c : List Nat,
    lexLt a b = true → lexLt b c = true → lexLt a c = true := by
  intro a
  induction a with
  | nil =>
    intro b c hab hbc
    cases b with
    | nil => simp [lexLt] at hab
    | cons b0 bs =>
      cases c with
      | nil => simp [lexLt] at hbc
      | cons c0 cs => rfl
  | cons a0 as ih =>
    intro b c hab hbc
    cases b with
    | nil => simp [lexLt] at hab
    | cons b0 bs =>
      cases c with
      | nil => simp [lexLt] at hbc
      | cons c0 cs =>
        simp only [lexLt] at hab hbc ⊢
        split_ifs at hab hbc ⊢ with h1 h2 h3 h4 h5 h6 <;>
          first
          | rfl
          | omega
          | (exact ih bs cs hab hbc)
          | (subst h2; omega)
          | (subst h4; omega)
          | (subst h2; subst h4; omega)
          | (cases hab)
          | (cases hbc)

theorem lexLt_asymm : ∀ a b : List Nat, lexLt a b = true → lexLt b a = false := by
  intro a
  induction a with
  | nil =>
    intro b hab
    cases b with
    | nil => simp [lexLt] at hab
    | cons b0 bs => rfl
  | cons a0 as ih =>
    intro b hab
    cases b with
    | nil => simp [lexLt] at hab
    | cons b0 bs =>
      simp only [lexLt] at hab ⊢
      split_ifs at hab ⊢ with h1 h2 h3 h4 <;>
        first
        | rfl
        | omega
        | (exact ih bs hab)
        | (cases hab)
        | (subst h2; omega)
        | (subst h3; omega)
        | (subst h2; subst h3; omega)

theorem lexLt_total_ne : ∀ a b : List Nat,
    lexLt a b = false → a ≠ b → lexLt b a = true := by
  intro a
  induction a with
  | nil =>
    intro b hab hne
    cases b with
    | nil => exact absurd rfl hne
    | cons b0 bs => simp [lexLt] at hab
  | cons a0 as ih =>
    intro b hab hne
    cases b with
    | nil => rfl
    | cons b0 bs =>
      simp only [lexLt] at hab ⊢
      by_cases h1 : a0 < b0
      · rw [if_pos h1] at hab
        cases hab
      · rw [if_neg h1] at hab
        by_cases h2 : a0 = b0
        · subst h2
          rw [if_pos rfl] at hab
          rw [if_neg (by omega), if_pos rfl]
          exact ih bs hab (by intro h3; exact hne (by rw [h3]))
        · rw [if_pos (by omega)]

theorem mem_treeInsert {t : List GTreeEnt} {e y : GTreeEnt}
    (h : y ∈ treeInsert t e) : y ∈ t ∨ y = e := by
  induction t with
  | nil =>
    right
    simpa [treeInsert] using h
  | cons x xs ih =>
    rw [treeInsert] at h
    split_ifs at h with h1 h2
    · rcases List.mem_cons.1 h with rfl | h3
      · right; rfl
      · left; exact h3
    · left; exact h
    · rcases List.mem_cons.1 h with rfl | h3
      · left; exact List.mem_cons_self _ _
      · rcases ih h3 with h4 | h4
        · left; exact List.mem_cons_of_mem _ h4
        · right; exact h4

/-- Ordered insertion preserves strict sortedness by path. -/
theorem treeInsert_pairwise (t : List GTreeEnt) (e : GTreeEnt)
    (h : t.Pairwise fun a b => lexLt a.path b.path = true) :
    (treeInsert t e).Pairwise fun a b => lexLt a.path b.path = true := by
  induction t with
  | nil => simp [treeInsert]
  | cons x xs ih =>
    rw [List.pairwise_cons] at h
    rw [treeInsert]
    split_ifs with h1 h2
    · rw [List.pairwise_cons]
      refine ⟨?_, List.pairwise_cons.2 h⟩
      intro y hy
      rcases List.mem_cons.1 hy with rfl | h3
      · exact h1
      · exact lexLt_trans _ _ _ h1 (h.1 y h3)
    · exact List.pairwise_cons.2 h
    · rw [List.pairwise_cons]
      refine ⟨?_, ih h.2⟩
      intro y hy
      rcases mem_treeInsert hy with h3 | rfl
      · exact h.1 y h3
      · exact lexLt_total_ne _ _ (by simpa using h1) h2

/-- Inserting an entry whose path is already present returns the sorted
entry list unchanged (`BTreeSet::insert` does not replace). -/
theorem treeInsert_of_mem_path (t : List GTreeEnt) (e x : GTreeEnt)
    (hsorted : t.Pairwise fun a b => lexLt a.path b.path = true)
    (hx : x ∈ t) (hp : e.path = x.path) : treeInsert t e = t := by
  induction t with
  | nil => cases hx
  | cons y ys ih =>
    rw [List.pairwise_cons] at hsorted
    rw [treeInsert]
    rcases List.mem_cons.1 hx with rfl | h3
    · rw [hp, lexLt_irrefl]
      simp
    · have hyx : lexLt y.path x.path = true := hsorted.1 x h3
      have h1 : lexLt e.path y.path = false := by
        rw [hp]
        exact lexLt_asymm _ _ hyx
      have h2 : e.path ≠ y.path := by
        rw [hp]
        exact fun heq => lexLt_ne hyx heq.symm
      rw [if_neg (by simp [h1]), if_neg h2, ih hsorted.2 h3]

theorem foldl_treeInsert_pairwise (l : List GTreeEnt) : ∀ acc : List GTreeEnt,
    (acc.Pairwise fun a b => lexLt a.path b.path = true) →
    ((l.foldl treeInsert acc).Pairwise fun a b => lexLt a.path b.path = true) := by
  induction l with
  | nil => exact fun acc h => h
  | cons e es ih => exact fun acc h => ih _ (treeInsert_pairwise acc e h)

/-- Every tree built by repeated insertion is strictly sorted. -/
theorem mkTree_pairwise (l : List GTreeEnt) :
    (mkTree l).Pairwise fun a b => lexLt a.path b.path = true :=
  foldl_treeInsert_pairwise l [] List.Pairwise.nil

/-- C3 (code_bug evidence): `get_ref_follow_links` has no depth bound —
the code matches `Ref::Link` and recurses unconditionally, and no
`MAX_REF_DEPTH` exists anywhere in the source.  On a repository whose
`HEAD` is a symbolic ref to itself the fuel-indexed unfolding returns
no outcome at any depth: the recursion never terminates, so in
particular it neither resolves nor fails with `InvalidRef` within any
bound (16 included). -/
theorem claim_C3_follow_links_cycle_diverges (n : Nat) :
    getRefFollowLinksFuel cyclicRefStore n .head = none := by
  induction n with
  | zero => rfl
  | succ n ih =>
    show getRefFollowLinksFuel cyclicRefStore n .head = none
    exact ih

theorem tagP_prefix (t rest : List Nat) : tagP t (t ++ rest) = .done rest () := by
  unfold tagP
  have h1 : ¬ (t ++ rest).length < t.length := by
    rw [List.length_append]
    omega
  rw [if_neg h1, List.take_left, if_pos rfl, List.drop_left]

theorem parseTreeEntType_tree (l : List Nat) :
    parseTreeEntType (52 :: l) = .done l [52] := by
  have h : tagP [52] (52 :: l) = .done l () := tagP_single 52 l
  unfold parseTreeEntType
  rw [h]

theorem parseTreeEntType_blob (l : List Nat) :
    parseTreeEntType (49 :: 48 :: l) = .done l [49, 48] := by
  have h1 : tagP [52] (49 :: 48 :: l) = .perror := by
    unfold tagP
    rw [if_neg (by simp)]
    simp
  have h2 : tagP [49, 48] (49 :: 48 :: l) = .done l () := tagP_prefix [49, 48] l
  unfold parseTreeEntType
  rw [h1, h2]

theorem parsePermissions_cons (u g o : Nat) (l : List Nat) :
    parsePermissions (48 :: u :: g :: o :: l) =
      .done l ⟨permSetFromByte u, permSetFromByte g, permSetFromByte o⟩ := by
  unfold parsePermissions
  rw [tagP_single, PR.bind_done]

theorem takeUntilConsume_zero (name rest : List Nat) (hname : ¬ 0 ∈ name) :
    takeUntilConsume [0] (name ++ 0 :: rest) = .done rest name := by
  induction name with
  | nil =>
    show takeUntilConsume [0] (0 :: rest) = .done rest []
    simp [takeUntilConsume, List.isPrefixOf]
  | cons c cs ih =>
    have hc : c ≠ 0 := fun h => hname (by simp [h])
    have hpre : [0].isPrefixOf (c :: (cs ++ 0 :: rest)) = false := by
      simp [List.isPrefixOf]
      omega
    rw [List.cons_append]
    simp only [takeUntilConsume, hpre, Bool.false_eq_true, if_false,
      ih (fun h => hname (List.mem_cons_of_mem _ h))]

theorem decodeBytes20_exact (h rest : List Nat) (hh : h.length = 20) :
    decodeBytes20 (h ++ rest) = .done rest h := by
  unfold decodeBytes20 sliceTo
  have hle : 20 ≤ (h ++ rest).length := by
    rw [List.length_append]
    omega
  have htake : (h ++ rest).take 20 = h := by
    rw [← hh]
    exact List.take_left h rest
  have hdrop : (h ++ rest).drop 20 = rest := by
    rw [← hh]
    exact List.drop_left h rest
  rw [if_pos hle]
  simp [htake, hdrop, hh]

/-- C2 (code_bug evidence): `lookup_hash` consults only the packfile
indexes — the statement that gathers matching loose objects is
commented out in the source, leaving the `looses` accumulator empty.
On the spec's S5 repository (one loose object whose digest begins
`b1c`, no pack index) the code returns the empty list where the spec's
union returns exactly that loose id.  The source's own `loopup` test
passes vacuously, asserting a property of each returned element over an
empty result. -/
theorem claim_C2_lookup_hash_drops_loose :
    lookupHash looseOnlyStore (strB "b1c") = [] ∧
      lookupHashSpec looseOnlyStore (strB "b1c") = [looseHashB1C] := by
  refine ⟨by decide, by decide⟩

/-- C7 (confirmed): tree-entry decoding maps the leading type digits
`"10"` to a blob (regular file) entry and `"4"` to a tree (directory)
entry, and encoding maps them back — `"10"` is consumed as one
two-digit tag (there is no one-digit `"1"` alternative to shadow it,
and the `"4"` branch cannot fire on a `'1'`), so a blob head is never
misread.  Stated over every permission triple, NUL-free name, 20-byte
digest and remainder. -/
theorem claim_C7_tree_ent_type_mapping (u g o : Nat) (name h rest : List Nat)
    (hname : ¬ 0 ∈ name) (hh : h.length = 20) :
    parseTreeEnt (49 :: 48 :: 48 :: u :: g :: o :: 32 :: (name ++ 0 :: (h ++ rest))) =
        .done rest
          (.blob ⟨permSetFromByte u, permSetFromByte g, permSetFromByte o⟩ name h) ∧
      parseTreeEnt (52 :: 48 :: u :: g :: o :: 32 :: (name ++ 0 :: (h ++ rest))) =
        .done rest
          (.tree ⟨permSetFromByte u, permSetFromByte g, permSetFromByte o⟩ name h) ∧
      (∀ p : GPerms, ∀ hsh : List Nat,
        (encodeTreeEnt (.blob p name hsh)).take 2 = [49, 48]) ∧
      (∀ p : GPerms, ∀ hsh : List Nat,
        (encodeTreeEnt (.tree p name hsh)).take 1 = [52]) := by
  refine ⟨?_, ?_, fun p hsh => rfl, fun p hsh => rfl⟩
  · unfold parseTreeEnt
    rw [parseTreeEntType_blob, PR.bind_done, parsePermissions_cons, PR.bind_done,
      tagP_single, PR.bind_done, takeUntilConsume_zero _ _ hname, PR.bind_done,
      decodeBytes20_exact _ _ hh, PR.bind_done]
    simp
  · unfold parseTreeEnt
    rw [parseTreeEntType_tree, PR.bind_done, parsePermissions_cons, PR.bind_done,
      tagP_single, PR.bind_done, takeUntilConsume_zero _ _ hname, PR.bind_done,
      decodeBytes20_exact _ _ hh, PR.bind_done]
    simp

/-- Witness for C7: mode `100644`, name `README.md`, a concrete
digest. -/
theorem claim_C7_tree_ent_type_mapping_witness :
    (¬ 0 ∈ strB "README.md") ∧ (List.replicate 20 1).length = 20 ∧
      (parseTreeEnt (49 :: 48 :: 48 :: 54 :: 52 :: 52 :: 32 ::
            (strB "README.md" ++ 0 :: (List.replicate 20 1 ++ []))) =
          .done []
            (.blob ⟨permSetFromByte 54, permSetFromByte 52, permSetFromByte 52⟩
              (strB "README.md") (List.replicate 20 1)) ∧
        parseTreeEnt (52 :: 48 :: 54 :: 52 :: 52 :: 32 ::
            (strB "README.md" ++ 0 :: (List.replicate 20 1 ++ []))) =
          .done []
            (.tree ⟨permSetFromByte 54, permSetFromByte 52, permSetFromByte 52⟩
              (strB "README.md") (List.replicate 20 1)) ∧
        (∀ p : GPerms, ∀ hsh : List Nat,
          (encodeTreeEnt (.blob p (strB "README.md") hsh)).take 2 = [49, 48]) ∧
        (∀ p : GPerms, ∀ hsh : List Nat,
          (encodeTreeEnt (.tree p (strB "README.md") hsh)).take 1 = [52])) :=
  ⟨by decide, by decide,
    claim_C7_tree_ent_type_mapping 54 52 52 (strB "README.md")
      (List.replicate 20 1) [] (by decide) (by decide)⟩

/-- C8 (confirmed): every tree built through the public constructors
(`new` plus repeated `insert`, the path `FromIterator` also takes) has
its entries in strictly ascending path order — hence at most one entry
per name — and its encoded form writes the entries in exactly that
order after the `"tree <len>\x00"` header; inserting an entry whose
path equals that of a present entry returns the tree unchanged, whatever
its permissions or digest. -/
theorem claim_C8_tree_sorted_insert_dup (l : List GTreeEnt) (e x : GTreeEnt)
    (hx : x ∈ mkTree l) (hp : e.path = x.path) :
    ((mkTree l).Pairwise fun a b => lexLt a.path b.path = true) ∧
      encodeTree (mkTree l) =
        strB "tree " ++
          natDecimal ((mkTree l).foldl (fun s e => s + treeEntRequiredSize e) 0)
          ++ [0] ++ ((mkTree l).map encodeTreeEnt).flatten ∧
      treeInsert (mkTree l) e = mkTree l :=
  ⟨mkTree_pairwise l, rfl,
    treeInsert_of_mem_path _ _ _ (mkTree_pairwise l) hx hp⟩

/-- Witness for C8: inserting `README.md` out of order sorts it before
`src`; re-inserting a `README.md` entry with a different digest leaves
the tree unchanged. -/
theorem claim_C8_tree_sorted_insert_dup_witness :
    witEntA ∈ mkTree [witEntB, witEntA] ∧ witEntA2.path = witEntA.path ∧
      (((mkTree [witEntB, witEntA]).Pairwise
          fun a b => lexLt a.path b.path = true) ∧
        encodeTree (mkTree [witEntB, witEntA]) =
          strB "tree " ++
            natDecimal ((mkTree [witEntB, witEntA]).foldl
              (fun s e => s + treeEntRequiredSize e) 0)
            ++ [0] ++ ((mkTree [witEntB, witEntA]).map encodeTreeEnt).flatten ∧
        treeInsert (mkTree [witEntB, witEntA]) witEntA2 = mkTree [witEntB, witEntA]) :=
  ⟨by decide, by decide,
    claim_C8_tree_sorted_insert_dup [witEntB, witEntA] witEntA2 witEntA
      (by decide) (by decide)⟩

/-- C10 (confirmed): when the loose-object file
`objects/<hex[0..2]>/<hex[2..]>` for the requested hash does not exist,
`get_object` returns `Err(InvalidRef(p))` with `p` the full path of the
missing file — the ref-error constructor, not `MissingFile` or
`IoError` — and opens no file: the `is_file` check precedes `open_file`,
the zlib inflater and the decoder.  (The hash is nonempty so that the
`split_at(2)` of the code stays in bounds.) -/
theorem claim_C10_get_object_missing_file {α : Type} (fs : FSModel)
    (inflate : List Nat → Option (List Nat)) (dec : List Nat → PR α)
    (h : List Nat) (hne : h ≠ [])
    (hmiss : fs.files (objectPathOf fs.gitPath h) = none) :
    getObject fs inflate dec h =
        some (.error (.invalidRef (objectPathOf fs.gitPath h))) ∧
      getObjectOpens fs h = [] := by
  unfold getObject getObjectOpens
  rw [hmiss]
  exact ⟨rfl, rfl⟩

/-- Witness for C10 on an empty store and the all-zero digest. -/
theorem claim_C10_get_object_missing_file_witness :
    (List.replicate 20 0 ≠ ([] : List Nat)) ∧
      emptyFS.files (objectPathOf emptyFS.gitPath (List.replicate 20 0)) = none ∧
      (getObject emptyFS (fun _ => none) (fun _ => (PR.perror : PR Unit))
          (List.replicate 20 0) =
        some (.error (.invalidRef
          (objectPathOf emptyFS.gitPath (List.replicate 20 0)))) ∧
      getObjectOpens emptyFS (List.replicate 20 0) = []) :=
  ⟨by decide, rfl,
    claim_C10_get_object_missing_file emptyFS (fun _ => none)
      (fun _ => (PR.perror : PR Unit)) (List.replicate 20 0) (by decide) rfl⟩

/-- C4 (code_bug evidence): on an index whose flagged small offsets do
not reference large-offset slots in first-to-last order, the parser
stores the wrong offsets: the fixup loop consumes the large-offset
entries sequentially, ignoring the low 31 bits of each flagged value.
On `idxFailingInput` — entry 0 flags slot 1, entry 1 flags slot 0,
large table `[100, 200]` — the code stores `[100, 200]` where the
format (the spec's low-31-bit indexed lookup) prescribes
`[200, 100]`. -/
theorem claim_C4_large_offset_resolution :
    parseIndexOffsets idxFailingInput = some [100, 200] ∧
      resolveOffsetsSpec [2 ^ 31 + 1, 2 ^ 31] [100, 200] = [200, 100] ∧
      ([100, 200] : List Nat) ≠ [200, 100] := by
  refine ⟨by decide, by decide, by decide⟩

end GitSpec
